import Mathlib

/-!
A verification development for the `youtube-podcast` repository.

The ingestion pipeline lives in `youtube_subs_daily.py`; the summarizer lives
in `summarize_and_email.py` and `templates/summarize_and_email.py`.  The
Python code is embedded shallowly:

* machine-level strings are Lean `String`s; Python `len`/slicing count code
  points, so they are modelled on `String.data` (a `List Char`);
* timestamps (`datetime`) are modelled as `Nat` instants, `datetime.min`
  being `0`, the least instant; `datetime.fromisoformat` (standard library,
  not repository code) is a parameter `lib : String → Option Nat`;
* remote services are parameters: a page service `Nat → FeedPage` returns the
  response to the k-th request of a feed walk, the details service
  `String → Option Detail` gives the per-id `videos.list` payload, and the
  completion endpoint for the retry loop is `Nat → Nat` (attempt ↦ status);
* fallible calls (`HttpError`) are `Except Unit`;
* the filesystem (two CSV sinks and the state file) is an explicit `World`
  value threaded through `run`.
-/

/-! ### Python string helpers (code-point faithful) -/

/-- Code-point length, Python `len(s)`. -/
def pyLen (s : String) : Nat := s.data.length

/-- Code-point slice from the start, Python `s[:n]`. -/
def pyTake (n : Nat) (s : String) : String := ⟨s.data.take n⟩

/-- Python `s.replace(c, repl)` for a single-character pattern. -/
def pyReplaceChar (c : Char) (repl : List Char) (s : String) : String :=
  ⟨s.data.flatMap (fun d => if d = c then repl else [d])⟩

/-- Model of `s.replace("Z", "+00:00")` from `parse_iso_dt`. -/
def pyReplaceZ (s : String) : String :=
  pyReplaceChar 'Z' "+00:00".data s

/-- Python `s.strip(junk)`: drop characters satisfying `junk` from both ends. -/
def pyStrip (junk : Char → Bool) (s : String) : String :=
  ⟨((s.data.dropWhile junk).reverse.dropWhile junk).reverse⟩

/-- Python `s.strip()` (whitespace). -/
def pyStripWs (s : String) : String := pyStrip Char.isWhitespace s

/-- Splitting a character list at `\n` separators. -/
def splitLinesAux : List Char → List Char → List String
  | [], cur => [⟨cur.reverse⟩]
  | c :: cs, cur =>
    if c = '\n' then ⟨cur.reverse⟩ :: splitLinesAux cs []
    else splitLinesAux cs (c :: cur)

/-- Python `s.splitlines()` restricted to `\n` separators (the only line
separator occurring in the data handled here); a trailing separator yields no
trailing empty line, as in Python. -/
def pySplitlines (s : String) : List String :=
  if s = "" then [] else
    let parts := splitLinesAux s.data []
    if parts.getLast? = some "" then parts.dropLast else parts

/-- Lexicographic code-point order on strings, Python `str` comparison
(executable; agrees with the comparison `sorted` uses). -/
def charListLe : List Char → List Char → Bool
  | [], _ => true
  | _ :: _, [] => false
  | a :: as, b :: bs =>
    if a.toNat < b.toNat then true
    else if a.toNat = b.toNat then charListLe as bs
    else false

def strLe (a b : String) : Bool := charListLe a.data b.data

/-! ### A stable ascending sort (model of Python `list.sort`)

Python's `list.sort` is a stable ascending sort; any stable ascending sort
computes the same list, so the structurally recursive insertion sort below is
a faithful model. -/

def insertSorted (le : α → α → Bool) (x : α) : List α → List α
  | [] => [x]
  | y :: ys => if le x y then x :: y :: ys else y :: insertSorted le x ys

def stableSort (le : α → α → Bool) : List α → List α
  | [] => []
  | x :: xs => insertSorted le x (stableSort le xs)

/-! ### ResilientClient: `post_with_retries`

`post_with_retries` is defined, with identical retry logic, in both
`summarize_and_email.py` and `templates/summarize_and_email.py`:

```python
def post_with_retries(url, headers, payload, tries=5, timeout=120):
    backoff = 2
    for i in range(tries):
        resp = requests.post(url, headers=headers, json=payload, timeout=timeout)
        if resp.status_code in (429, 500, 502, 503, 504):
            if i == tries - 1:
                resp.raise_for_status()
            time.sleep(backoff)
            backoff = min(backoff * 2, 60)
            continue
        resp.raise_for_status()
        return resp
```

The remote is `svc : Nat → Nat`, attempt index to status code.
`resp.raise_for_status()` raises exactly when `400 ≤ status < 600`. -/

def isTransient (s : Nat) : Bool :=
  s = 429 || s = 500 || s = 502 || s = 503 || s = 504

inductive PostResult where
  /-- the response of attempt `attempt` (status `status`) was returned -/
  | ok (attempt status : Nat)
  /-- the call to `raise_for_status` raised on attempt `attempt` (status `status`) -/
  | err (attempt status : Nat)
  /-- the `for` loop ran out without returning (only when `tries = 0`);
      Python falls through and returns `None` -/
  | fellThrough
deriving DecidableEq

/-- The loop body of `post_with_retries`; `remaining = tries - i` is the
number of iterations still allowed, so `i == tries - 1` is `remaining = 1`.
`sleeps` records every `time.sleep(backoff)` performed, in order. -/
def postGo (svc : Nat → Nat) : Nat → Nat → Nat → List Nat → PostResult × List Nat
  | 0, _, _, sleeps => (.fellThrough, sleeps)
  | r + 1, i, backoff, sleeps =>
    let s := svc i
    if isTransient s then
      if r = 0 then (.err i s, sleeps)
      else postGo svc r (i + 1) (min (backoff * 2) 60) (sleeps ++ [backoff])
    else if 400 ≤ s ∧ s < 600 then (.err i s, sleeps)
    else (.ok i s, sleeps)

def post_with_retries (svc : Nat → Nat) (tries : Nat := 5) : PostResult × List Nat :=
  postGo svc tries 0 2 []

/-! ### ResponseNormalizer: `parse_json_or_fallback`
(`templates/summarize_and_email.py`)

```python
def parse_json_or_fallback(text):
    try:
        obj = json.loads(text)
        one = (obj.get("one_line") or "").strip()
        pts = [p.strip() for p in obj.get("points", []) if isinstance(p, str) and p.strip()]
        return {"one_line": one[:60], "points": pts[:8]}
    except Exception:
        lines = [ln.strip(" \t-•·") for ln in text.splitlines() if ln.strip()]
        one = lines[0][:60] if lines else "（解析失败）"
        pts = [ln[:80] for ln in lines[1:9]]
        return {"one_line": one, "points": pts}
```

`json.loads` (standard library) is modelled by its result: a
`loads : Option PyJson` argument, `none` when it raises.  Everything that can
raise inside the `try` (attribute errors on non-strings, `TypeError` when
iterating a non-iterable `points`) routes to the fallback branch, exactly as
the blanket `except Exception` does. -/

inductive PyJson where
  | null
  | bool (b : Bool)
  | num (n : Int)
  | str (s : String)
  | arr (xs : List PyJson)
  | obj (fields : List (String × PyJson))

/-- Model of `dict.get` for a JSON-decoded object; duplicate keys keep the last, as in
Python's `json.loads`. -/
def jsonGet (fields : List (String × PyJson)) (k : String) : Option PyJson :=
  (fields.reverse.find? (fun p => p.1 = k)).map (·.2)

/-- Model of `(x or "")` for the `one_line` field, `none` when the subsequent
`.strip()` would raise (truthy non-string). -/
def pyOrEmptyStr : Option PyJson → Option String
  | none => some ""
  | some .null => some ""
  | some (.bool false) => some ""
  | some (.num 0) => some ""
  | some (.str s) => some s
  | some (.arr []) => some ""
  | some (.obj []) => some ""
  | some _ => none

/-- One element of the `points` comprehension:
kept iff `isinstance(p, str) and p.strip()`, yielding `p.strip()`. -/
def pointElem : PyJson → Option String
  | .str s => if pyStripWs s = "" then none else some (pyStripWs s)
  | _ => none

/-- Model of `[p.strip() for p in obj.get("points", []) if isinstance(p, str) and p.strip()]`.
Iterating a string yields its characters; iterating a dict yields its keys;
iterating `None`/numbers/booleans raises `TypeError` (`none`, to fallback). -/
def pointsOf : Option PyJson → Option (List String)
  | none => some []
  | some (.arr xs) => some (xs.filterMap pointElem)
  | some (.str s) =>
      some ((s.data.map (fun c => PyJson.str (String.singleton c))).filterMap pointElem)
  | some (.obj fs) => some ((fs.map (fun p => PyJson.str p.1)).filterMap pointElem)
  | some .null => none
  | some (.bool _) => none
  | some (.num _) => none

/-- The `try` branch; `none` when it raises and control moves to `except`.
`obj.get` on a non-dict raises `AttributeError`. -/
def structuredPart : Option PyJson → Option (String × List String)
  | some (.obj fields) => do
      let oneRaw ← pyOrEmptyStr (jsonGet fields "one_line")
      let pts ← pointsOf (jsonGet fields "points")
      return (pyTake 60 (pyStripWs oneRaw), pts.take 8)
  | some _ => none
  | none => none

/-- Characters stripped in the fallback branch, `" \t-•·"`. -/
def fallbackJunk (c : Char) : Bool :=
  c = ' ' || c = '\t' || c = '-' || c = '•' || c = '·'

/-- The `except` branch. -/
def fallbackLines (text : String) : String × List String :=
  let lines :=
    ((pySplitlines text).filter (fun ln => pyStripWs ln ≠ "")).map (pyStrip fallbackJunk)
  let one := match lines with
    | [] => "（解析失败）"
    | l :: _ => pyTake 60 l
  let pts := ((lines.drop 1).take 8).map (pyTake 80)
  (one, pts)

def parse_json_or_fallback (loads : Option PyJson) (text : String) :
    String × List String :=
  match structuredPart loads with
  | some r => r
  | none => fallbackLines text

/-! ### FeedWalker: `fetch_playlist_items_pages` (`youtube_subs_daily.py`)

```python
def fetch_playlist_items_pages(youtube, uploads_id, pages):
    items = []
    page_token = None
    fetched = 0
    while True:
        resp = youtube.playlistItems().list(...).execute()
        items.extend(resp.get("items", []))
        page_token = resp.get("nextPageToken")
        fetched += 1
        if not page_token or fetched >= pages:
            break
    return items
```

The service is `svc : Nat → FeedPage`, mapping the request index (the value of
`fetched` when the request is issued) to its response. -/

structure FeedItem where
  /-- the field `item["contentDetails"]["videoId"]` -/
  videoId : String
  /-- the field `snippet.get("channelTitle", "")` -/
  channelTitle : String
  /-- the field `snippet.get("title", "")` -/
  title : String
  /-- the field `snippet.get("description", "")` (absent field modelled as `""`,
      matching the `or ""` at use site) -/
  description : String
  /-- the field `contentDetails.get("videoPublishedAt")`, `none` when absent -/
  videoPublishedAt : Option String
  /-- the field `snippet.get("publishedAt")`, `none` when absent -/
  publishedAt : Option String
deriving DecidableEq

structure FeedPage where
  items : List FeedItem
  nextPageToken : Option String

/-- The `while True` loop, indexed structurally by `remaining = pages - fetched`
(the number of iterations the budget still allows); the post-increment test
`fetched >= pages` is `remaining ≤ 1` at entry to the iteration.  Returns the
collected items together with the final value of `fetched` (the number of
requests issued). -/
def fetchGo (svc : Nat → FeedPage) : Nat → Nat → List FeedItem → List FeedItem × Nat
  | 0, fetched, acc => (acc ++ (svc fetched).items, fetched + 1)
  | 1, fetched, acc => (acc ++ (svc fetched).items, fetched + 1)
  | r + 2, fetched, acc =>
    let resp := svc fetched
    let acc2 := acc ++ resp.items
    match resp.nextPageToken with
    | none => (acc2, fetched + 1)
    | some _ => fetchGo svc (r + 1) (fetched + 1) acc2

def fetch_playlist_items_pages (svc : Nat → FeedPage) (pages : Nat) :
    List FeedItem × Nat :=
  fetchGo svc pages 0 []

/-! ### BatchEnricher: `chunked` and `enrich_videos` -/

/-- The `videos.list` batch cap, `BATCH_SIZE_VIDEOS = 50`. -/
def BATCH_SIZE_VIDEOS : Nat := 50

/-- The `subscriptions` and `playlistItems` page cap, `MAX_RESULTS = 50`. -/
def MAX_RESULTS : Nat := 50

/-- The recursion of `chunked`, made structural on a fuel bounding the list
length (each step removes at least one element when `n ≠ 0`, so any
`fuel ≥ seq.length` computes the same chunks). -/
def chunkedGo (n : Nat) : Nat → List α → List (List α)
  | _, [] => []
  | 0, _ :: _ => []
  | fuel + 1, x :: xs =>
    if n = 0 then []
    else (x :: xs).take n :: chunkedGo n fuel ((x :: xs).drop n)

/--
```python
def chunked(seq, n):
    for i in range(0, len(seq), n):
        yield seq[i:i+n]
```
Consecutive slices of at most `n`.  (`n = 0` raises `ValueError` in Python;
the function is only ever called with `n = BATCH_SIZE_VIDEOS = 50`.) -/
def chunked (seq : List α) (n : Nat) : List (List α) :=
  chunkedGo n seq.length seq

structure Detail where
  /-- the field `details[vid].get("snippet", {}).get("channelTitle")` -/
  channelTitle : Option String
  /-- the field `statistics.get("viewCount")` -/
  viewCount : Option String
  /-- the field `statistics.get("likeCount")` -/
  likeCount : Option String
  /-- the field `statistics.get("commentCount")` -/
  commentCount : Option String
  /-- the field `contentDetails.get("duration")` -/
  duration : Option String
deriving DecidableEq

/--
```python
def enrich_videos(youtube, video_ids):
    out = {}
    for chunk in chunked(video_ids, BATCH_SIZE_VIDEOS):
        resp = youtube.videos().list(..., id=",".join(chunk), ...).execute()
        for it in resp.get("items", []):
            out[it["id"]] = it
    return out
```
The remote is `svc : List String → List (String × Detail)`: the response items
for one chunk, each tagged with its `id`.  The dict is represented as a lookup
function; a later binding for the same id overwrites an earlier one, as Python
dict assignment does. -/
def dictInsert (out : String → Option Detail) (p : String × Detail) :
    String → Option Detail :=
  fun v => if v = p.1 then some p.2 else out v

def enrich_videos (svc : List String → List (String × Detail))
    (video_ids : List String) : String → Option Detail :=
  (chunked video_ids BATCH_SIZE_VIDEOS).foldl
    (fun out chunk => (svc chunk).foldl dictInsert out)
    (fun _ => none)

/-- The actual `videos.list` behaviour: one response item per requested id the
service knows, carrying that id.  Built from the per-id detail map `f`. -/
def enrichSvc (f : String → Option Detail) (chunk : List String) :
    List (String × Detail) :=
  chunk.filterMap (fun v => (f v).map (fun d => (v, d)))

/-! ### `parse_iso_dt` and RecordWriter: `write_csv`

```python
def parse_iso_dt(s):
    try:
        return datetime.fromisoformat(s.replace("Z", "+00:00"))
    except Exception:
        return datetime.min.replace(tzinfo=timezone.utc)
```
Instants are `Nat`; `datetime.min` is `0`, the least instant;
`fromisoformat` is the parameter `lib`. -/

def parse_iso_dt (lib : String → Option Nat) (s : String) : Nat :=
  match lib (pyReplaceZ s) with
  | some d => d
  | none => 0

structure Row where
  published : String
  channel_title : String
  channel_id : String
  title : String
  url : String
  video_id : String
  description : String
  viewCount : String
  likeCount : String
  commentCount : String
  duration : String
deriving DecidableEq

/-- Model of `rows.sort(key=lambda r: parse_iso_dt(r["published"]))`. -/
def sortRows (lib : String → Option Nat) (rows : List Row) : List Row :=
  stableSort
    (fun a b => Nat.ble (parse_iso_dt lib a.published) (parse_iso_dt lib b.published))
    rows

/-- A line of a CSV sink: the header row or a data row. -/
inductive CsvLine where
  | header
  | row (r : Row)
deriving DecidableEq

/-- One sink update of `write_csv`: open in append mode, write the header
first iff the file did not exist, then the sorted rows. -/
def appendSink (file : Option (List CsvLine)) (sorted : List Row) : List CsvLine :=
  (file.getD [CsvLine.header]) ++ sorted.map CsvLine.row

/--
```python
def write_csv(rows):
    if not rows:
        return None, 0
    rows.sort(key=lambda r: parse_iso_dt(r["published"]))
    day_file = OUT_DIR / f"updates_{iso_local_today()}.csv"
    write_header_day = not day_file.exists()
    write_header_all = not ALLTIME_CSV.exists()
    ... append header (if flagged) and rows to each sink ...
    return str(day_file), len(rows)
```
`today` supplies `iso_local_today()`; the sinks are passed and returned
explicitly (`none` = the file does not exist). -/
def write_csv (lib : String → Option Nat) (today : String)
    (day alltime : Option (List CsvLine)) (rows : List Row) :
    Option (List CsvLine) × Option (List CsvLine) × Option String × Nat :=
  if rows = [] then (day, alltime, none, 0)
  else
    let sorted := sortRows lib rows
    (some (appendSink day sorted), some (appendSink alltime sorted),
      some ("updates_" ++ today ++ ".csv"), rows.length)

/-! ### The ingestion run (`run` in `youtube_subs_daily.py`)

State file and CSV sinks form the `World`.  `read_state` returns the default
empty state when the file is absent.  Credential handling (`ensure_creds`,
`yt_service`) is an out-of-scope black box (spec §1) and has no effect on the
modelled state.  An `HttpError` anywhere inside the per-channel `try` block is
caught and the channel skipped; it is modelled at the channel's first remote
call (`uploadsOf` returning `.error`). -/

structure StateJson where
  seen_ids : List String
  last_run_utc : Option String
deriving DecidableEq

structure World where
  day : Option (List CsvLine)
  alltime : Option (List CsvLine)
  stateFile : Option StateJson
deriving DecidableEq

structure RunEnv where
  /-- result of `list_all_subscriptions`; `.error` when it raises `HttpError`
      (then `run` does `sys.exit(1)`) -/
  subs : Except Unit (List String)
  /-- the result of `get_uploads_playlist_id` per channel; `.error` = `HttpError` caught by
      the per-channel handler, `.ok none` = no uploads playlist -/
  uploadsOf : String → Except Unit (Option String)
  /-- the feed page service of an uploads playlist: request index ↦ response -/
  feedPages : String → Nat → FeedPage
  /-- the per-id `videos.list` payload -/
  detail : String → Option Detail
  /-- the `--pages` budget -/
  pages : Nat
  /-- the library function `datetime.fromisoformat` -/
  parseIso : String → Option Nat
  /-- the value of `iso_local_today()` -/
  today : String
  /-- the value of `now_utc_iso()` -/
  nowUtc : String

/-- Model of `read_state()`: the contents of the file, or the first-run default. -/
def read_state (w : World) : StateJson :=
  w.stateFile.getD { seen_ids := [], last_run_utc := none }

/-- Model of `set(state.get("seen_ids", []))`: only membership and the element set are
ever used of it, so it is modelled as a duplicate-free list with the same
members. -/
def pySetOfList : List String → List String
  | [] => []
  | x :: xs =>
    let rest := pySetOfList xs
    if x ∈ rest then rest else x :: rest

/-- Model of `sorted(seen_ids)` on the Python set: ascending, duplicate-free
(the set itself holds no duplicates). -/
def sortStrings (l : List String) : List String :=
  stableSort strLe l

/-- Row construction, the body of the second per-item loop in `run`. -/
def buildRow (ch_id : String) (it : FeedItem) (dv : Detail) : Row :=
  let ch_title := it.channelTitle
  let title := pyStripWs (pyReplaceChar '\n' [' '] it.title)
  let desc :=
    if pyLen it.description > 1000
    then pyTake 1000 it.description ++ " …"
    else it.description
  let publish_iso := it.videoPublishedAt.getD (it.publishedAt.getD "")
  { published := publish_iso
    channel_title := if ch_title = "" then dv.channelTitle.getD "" else ch_title
    channel_id := ch_id
    title := title
    url := "https://www.youtube.com/watch?v=" ++ it.videoId
    video_id := it.videoId
    description := desc
    viewCount := dv.viewCount.getD ""
    likeCount := dv.likeCount.getD ""
    commentCount := dv.commentCount.getD ""
    duration := dv.duration.getD "" }

/-- One iteration of `for it in items:` — `(new_rows, seen_ids)` threaded as
the accumulator:
```python
vid = it["contentDetails"]["videoId"]
if vid not in details or vid in seen_ids:
    continue
... build row ...
new_rows.append(row)
seen_ids.add(vid)
``` -/
def rowStep (ch_id : String) (details : String → Option Detail)
    (acc : List Row × List String) (it : FeedItem) : List Row × List String :=
  let vid := it.videoId
  match details vid with
  | none => acc
  | some dv =>
    if vid ∈ acc.2 then acc
    else (acc.1 ++ [buildRow ch_id it dv], vid :: acc.2)

/-- The per-channel body of `run`'s main loop (the `try` block). -/
def processChannel (env : RunEnv) (acc : List Row × List String) (ch_id : String) :
    List Row × List String :=
  match env.uploadsOf ch_id with
  | .error _ => acc
  | .ok none => acc
  | .ok (some uploads_id) =>
    let items := (fetch_playlist_items_pages (env.feedPages uploads_id) env.pages).1
    let fresh := items.filterMap
      (fun it => if it.videoId ∈ acc.2 then none else some it.videoId)
    if fresh = [] then acc
    else
      let details := enrich_videos (enrichSvc env.detail) fresh
      items.foldl (rowStep ch_id details) acc

inductive RunResult where
  /-- the process exited via `sys.exit(1)` after `list_all_subscriptions` raised; the world is
      untouched -/
  | exited (w : World)
  /-- normal completion: the final world, `new_rows` in emission order, and
      the day-file name returned by `write_csv` -/
  | finished (w : World) (newRows : List Row) (dayFile : Option String)
deriving DecidableEq

/-- Model of `run(pages)`, from loading the state to persisting it. -/
def run (env : RunEnv) (w : World) : RunResult :=
  let state := read_state w
  let seen := pySetOfList state.seen_ids
  match env.subs with
  | .error _ => .exited w
  | .ok channel_ids =>
    let done := channel_ids.foldl (processChannel env) ([], seen)
    let out := write_csv env.parseIso env.today w.day w.alltime done.1
    let stateOut : StateJson :=
      { seen_ids := sortStrings done.2, last_run_utc := some env.nowUtc }
    .finished { day := out.1, alltime := out.2.1, stateFile := some stateOut }
      done.1 out.2.2.1

/-! ### Concrete inputs used by the witness theorems -/

/-- A completion endpoint that is transient (503) four times, then 200. -/
def wSvcRetry : Nat → Nat := fun i => if i < 4 then 503 else 200

def wFeedItem (v : String) : FeedItem :=
  { videoId := v
    channelTitle := "chan"
    title := "a title"
    description := "a description"
    videoPublishedAt := some "2024-01-01T00:00:00Z"
    publishedAt := none }

/-- A two-page feed: the first page carries a continuation token, the second
does not. -/
def wPages : Nat → FeedPage := fun k =>
  if k = 0 then { items := [wFeedItem "vidA"], nextPageToken := some "tok" }
  else { items := [wFeedItem "vidB"], nextPageToken := none }

def wDetail : Detail :=
  { channelTitle := some "chan"
    viewCount := some "10"
    likeCount := some "2"
    commentCount := some "1"
    duration := some "PT3M" }

/-- A one-channel environment whose single feed item enriches successfully. -/
def wEnv : RunEnv :=
  { subs := .ok ["ch1"]
    uploadsOf := fun c => if c = "ch1" then .ok (some "up1") else .ok none
    feedPages := fun _ _ => { items := [wFeedItem "vidA"], nextPageToken := none }
    detail := fun v => if v = "vidA" then some wDetail else none
    pages := 1
    parseIso := fun s => if s = "2024-01-01T00:00:00+00:00" then some 100 else none
    today := "2024-01-02"
    nowUtc := "2024-01-02T01:00:00+00:00" }

/-- The same environment with the subscriptions listing failing. -/
def wEnvFail : RunEnv :=
  { wEnv with subs := .error () }

def wEmpty : World := { day := none, alltime := none, stateFile := none }

def cexText : String := "no fences \x7b\"headline\":\"y\",\"points\":\"a；b\"\x7d"

def wFields : List (String × PyJson) :=
  [("one_line", PyJson.str "y"), ("points", PyJson.str "a；b")]

def wRowEarly : Row :=
  { published := "2024-01-01T00:00:00Z", channel_title := "c", channel_id := "i"
    title := "t1", url := "u1", video_id := "v1", description := "d"
    viewCount := "", likeCount := "", commentCount := "", duration := "" }

def wRowBad : Row :=
  { wRowEarly with published := "not-a-date", title := "t2", video_id := "v2" }

def wRowLate : Row :=
  { wRowEarly with published := "2024-01-03T00:00:00Z", title := "t3", video_id := "v3" }

/-- A `fromisoformat` model for the witness rows. -/
def wLib : String → Option Nat := fun s =>
  if s = "2024-01-01T00:00:00+00:00" then some 100
  else if s = "2024-01-03T00:00:00+00:00" then some 300
  else none

/-! ### Lemmas about the stable sort -/

theorem insertSorted_perm (le : α → α → Bool) (x : α) (l : List α) :
    (insertSorted le x l).Perm (x :: l) := by
  induction l with
  | nil => simp [insertSorted]
  | cons y ys ih =>
    by_cases h : le x y
    · simp [insertSorted, h]
    · simp only [insertSorted, if_neg h]
      exact (ih.cons y).trans (List.Perm.swap x y ys)

theorem stableSort_perm (le : α → α → Bool) (l : List α) :
    (stableSort le l).Perm l := by
  induction l with
  | nil => simp [stableSort]
  | cons x xs ih =>
    exact (insertSorted_perm le x (stableSort le xs)).trans (ih.cons x)

theorem mem_stableSort (le : α → α → Bool) {a : α} {l : List α} :
    a ∈ stableSort le l ↔ a ∈ l :=
  (stableSort_perm le l).mem_iff

theorem pairwise_insertSorted (le : α → α → Bool)
    (htrans : ∀ a b c, le a b = true → le b c = true → le a c = true)
    (htotal : ∀ a b, le a b = true ∨ le b a = true)
    (x : α) {l : List α} (hl : l.Pairwise (fun a b => le a b = true)) :
    (insertSorted le x l).Pairwise (fun a b => le a b = true) := by
  induction l with
  | nil => simp [insertSorted]
  | cons y ys ih =>
    have hy : ∀ b ∈ ys, le y b = true := fun b hb => List.rel_of_pairwise_cons hl hb
    have hys : ys.Pairwise (fun a b => le a b = true) := hl.of_cons
    by_cases h : le x y
    · simp only [insertSorted, if_pos h]
      refine List.Pairwise.cons ?_ hl
      intro b hb
      rcases List.mem_cons.mp hb with rfl | hb
      · exact h
      · exact htrans x y b h (hy b hb)
    · simp only [insertSorted, if_neg h]
      refine List.Pairwise.cons ?_ (ih hys)
      intro b hb
      have hb2 := (insertSorted_perm le x ys).mem_iff.mp hb
      rcases List.mem_cons.mp hb2 with heq | hb3
      · subst heq
        rcases htotal b y with h1 | h1
        · exact absurd h1 h
        · exact h1
      · exact hy b hb3

theorem pairwise_stableSort (le : α → α → Bool)
    (htrans : ∀ a b c, le a b = true → le b c = true → le a c = true)
    (htotal : ∀ a b, le a b = true ∨ le b a = true) (l : List α) :
    (stableSort le l).Pairwise (fun a b => le a b = true) := by
  induction l with
  | nil => simp [stableSort]
  | cons x xs ih => exact pairwise_insertSorted le htrans htotal x ih

theorem insertSorted_split (le : α → α → Bool) (x : α) (l : List α) :
    ∃ P Q, insertSorted le x l = P ++ x :: Q ∧ l = P ++ Q ∧
      ∀ p ∈ P, le x p = false := by
  induction l with
  | nil => exact ⟨[], [], rfl, rfl, by simp⟩
  | cons y ys ih =>
    by_cases h : le x y
    · refine ⟨[], y :: ys, ?_, rfl, by simp⟩
      simp [insertSorted, h]
    · obtain ⟨P, Q, h1, h2, h3⟩ := ih
      refine ⟨y :: P, Q, ?_, by simp [h2], ?_⟩
      · simp only [insertSorted, if_neg h, h1]
        rfl
      · intro p hp
        rcases List.mem_cons.mp hp with rfl | hp
        · exact Bool.eq_false_iff.mpr h
        · exact h3 p hp

theorem sublist_insertSorted (le : α → α → Bool) (x : α) (l : List α) :
    l.Sublist (insertSorted le x l) := by
  obtain ⟨P, Q, h1, h2, _⟩ := insertSorted_split le x l
  rw [h1, h2]
  exact List.Sublist.append_left (List.sublist_cons_self x Q) P

theorem stableSort_pair (le : α → α → Bool) {a b : α} {l : List α}
    (hab : le a b = true) (hsub : [a, b].Sublist l) :
    [a, b].Sublist (stableSort le l) := by
  induction l with
  | nil => simp at hsub
  | cons x xs ih =>
    cases hsub with
    | cons _ h =>
      exact (ih h).trans (sublist_insertSorted le x (stableSort le xs))
    | cons₂ _ h =>
      obtain ⟨P, Q, h1, h2, h3⟩ := insertSorted_split le a (stableSort le xs)
      have hb : b ∈ stableSort le xs :=
        (mem_stableSort le).mpr (h.subset (by simp))
      rw [h2] at hb
      have hbQ : b ∈ Q := by
        rcases List.mem_append.mp hb with hP | hQ
        · exact absurd hab (by simp [h3 b hP])
        · exact hQ
      show [a, b].Sublist (insertSorted le a (stableSort le xs))
      rw [h1]
      exact List.Sublist.trans
        ((List.singleton_sublist.mpr hbQ).cons₂ a)
        (List.sublist_append_right P (a :: Q))

/-- Both `strLe` and the `Nat.ble` row comparison are transitive and total. -/
theorem charListLe_trans : ∀ a b c : List Char,
    charListLe a b = true → charListLe b c = true → charListLe a c = true := by
  intro a
  induction a with
  | nil => intro b c _ _; rfl
  | cons x xs ih =>
    intro b c hab hbc
    cases b with
    | nil => simp [charListLe] at hab
    | cons y ys =>
      cases c with
      | nil => simp [charListLe] at hbc
      | cons z zs =>
        simp only [charListLe] at hab hbc ⊢
        by_cases hxy : x.toNat < y.toNat
        · by_cases hyz : y.toNat < z.toNat
          · simp [show x.toNat < z.toNat from Nat.lt_trans hxy hyz]
          · simp only [if_neg hyz] at hbc
            by_cases hyz2 : y.toNat = z.toNat
            · simp [show x.toNat < z.toNat from hyz2 ▸ hxy]
            · simp [hyz2] at hbc
        · simp only [if_neg hxy] at hab
          by_cases hxy2 : x.toNat = y.toNat
          · simp only [if_pos hxy2] at hab
            by_cases hyz : y.toNat < z.toNat
            · simp [hxy2 ▸ hyz]
            · simp only [if_neg hyz] at hbc
              by_cases hyz2 : y.toNat = z.toNat
              · have hxz : x.toNat = z.toNat := hxy2.trans hyz2
                have : ¬ x.toNat < z.toNat := by omega
                simp only [if_neg this, if_pos hxz]
                exact ih ys zs hab (by simpa [hyz2] using hbc)
              · simp [hyz2] at hbc
          · simp [hxy2] at hab

theorem charListLe_total : ∀ a b : List Char,
    charListLe a b = true ∨ charListLe b a = true := by
  intro a
  induction a with
  | nil => intro b; left; rfl
  | cons x xs ih =>
    intro b
    cases b with
    | nil => right; rfl
    | cons y ys =>
      simp only [charListLe]
      by_cases hxy : x.toNat < y.toNat
      · left; simp [hxy]
      · by_cases hyx : y.toNat < x.toNat
        · right; simp [hyx]
        · have hxy2 : x.toNat = y.toNat := by omega
          rcases ih ys with h | h
          · left; simp [hxy, hxy2, h]
          · right
            have : ¬ y.toNat < x.toNat := hyx
            simp [this, hxy2.symm, h]

theorem strLe_trans : ∀ a b c : String,
    strLe a b = true → strLe b c = true → strLe a c = true :=
  fun a b c hab hbc => charListLe_trans a.data b.data c.data hab hbc

theorem strLe_total : ∀ a b : String, strLe a b = true ∨ strLe b a = true :=
  fun a b => charListLe_total a.data b.data

/-! ### Lemmas about `post_with_retries` -/

theorem postGo_step (svc : Nat → Nat) (r i b : Nat) (s : List Nat)
    (ht : isTransient (svc i) = true) (hr : r ≠ 0) :
    postGo svc (r + 1) i b s = postGo svc r (i + 1) (min (b * 2) 60) (s ++ [b]) := by
  simp [postGo, ht, hr]

theorem postGo_last_transient (svc : Nat → Nat) (i b : Nat) (s : List Nat)
    (ht : isTransient (svc i) = true) :
    postGo svc 1 i b s = (.err i (svc i), s) := by
  simp [postGo, ht]

theorem isTransient_ge_400 (s : Nat) (h : isTransient s = true) : 400 ≤ s ∧ s < 600 := by
  simp only [isTransient, Bool.or_eq_true, decide_eq_true_eq] at h
  omega

/-- C2: after four transient responses the retry loop has slept 2, 4, 8, 16
seconds; the fifth attempt's response is decisive — returned when 2xx, raised
when still transient — and no attempt beyond the fifth is made (the outcome
always concerns attempt index 4). -/
theorem post_with_retries_backoff (svc : Nat → Nat)
    (h : ∀ i, i < 4 → isTransient (svc i) = true) :
    (post_with_retries svc 5).2 = [2, 4, 8, 16] ∧
    ((post_with_retries svc 5).1 = PostResult.ok 4 (svc 4) ∨
      (post_with_retries svc 5).1 = PostResult.err 4 (svc 4)) ∧
    (200 ≤ svc 4 → svc 4 < 300 → (post_with_retries svc 5).1 = PostResult.ok 4 (svc 4)) ∧
    (isTransient (svc 4) = true →
      (post_with_retries svc 5).1 = PostResult.err 4 (svc 4)) := by
  have e : post_with_retries svc 5 = postGo svc 1 4 32 [2, 4, 8, 16] := by
    show postGo svc 5 0 2 [] = _
    rw [show (5 : Nat) = 4 + 1 from rfl, postGo_step svc 4 0 2 [] (h 0 (by omega)) (by omega)]
    norm_num
    rw [show (4 : Nat) = 3 + 1 from rfl, postGo_step svc 3 1 4 [2] (h 1 (by omega)) (by omega)]
    norm_num
    rw [show (3 : Nat) = 2 + 1 from rfl, postGo_step svc 2 2 8 [2, 4] (h 2 (by omega)) (by omega)]
    norm_num
    rw [show (2 : Nat) = 1 + 1 from rfl, postGo_step svc 1 3 16 [2, 4, 8] (h 3 (by omega)) (by omega)]
    norm_num
  by_cases ht : isTransient (svc 4) = true
  · rw [e, postGo_last_transient svc 4 32 [2, 4, 8, 16] ht]
    exact ⟨rfl, Or.inr rfl, fun h2 h3 => absurd (isTransient_ge_400 _ ht) (by omega), fun _ => rfl⟩
  · by_cases he : 400 ≤ svc 4 ∧ svc 4 < 600
    · have hval : postGo svc 1 4 32 [2, 4, 8, 16] = (.err 4 (svc 4), [2, 4, 8, 16]) := by
        simp [postGo, ht, he]
      rw [e, hval]
      exact ⟨rfl, Or.inr rfl, fun h2 h3 => absurd he.1 (by omega), fun h4 => absurd h4 ht⟩
    · have hval : postGo svc 1 4 32 [2, 4, 8, 16] = (.ok 4 (svc 4), [2, 4, 8, 16]) := by
        simp [postGo, ht, he]
      rw [e, hval]
      exact ⟨rfl, Or.inl rfl, fun _ _ => rfl, fun h4 => absurd h4 ht⟩

/-! ### Lemmas about `fetch_playlist_items_pages` -/

theorem fetchGo_zero (svc : Nat → FeedPage) (f : Nat) (acc : List FeedItem) :
    fetchGo svc 0 f acc = (acc ++ (svc f).items, f + 1) := rfl

theorem fetchGo_one (svc : Nat → FeedPage) (f : Nat) (acc : List FeedItem) :
    fetchGo svc 1 f acc = (acc ++ (svc f).items, f + 1) := rfl

theorem fetchGo_succ_none (svc : Nat → FeedPage) (r f : Nat) (acc : List FeedItem)
    (h : (svc f).nextPageToken = none) :
    fetchGo svc (r + 2) f acc = (acc ++ (svc f).items, f + 1) := by
  simp only [fetchGo]
  rw [h]

theorem fetchGo_succ_some (svc : Nat → FeedPage) (r f : Nat) (acc : List FeedItem)
    (t : String) (h : (svc f).nextPageToken = some t) :
    fetchGo svc (r + 2) f acc = fetchGo svc (r + 1) (f + 1) (acc ++ (svc f).items) := by
  simp only [fetchGo]
  rw [h]

theorem fetchGo_count_le (svc : Nat → FeedPage) :
    ∀ r f acc, (fetchGo svc r f acc).2 ≤ f + max r 1 := by
  intro r
  induction r using Nat.strong_induction_on with
  | _ r ih =>
    intro f acc
    match r with
    | 0 => rw [fetchGo_zero]; simp
    | 1 => rw [fetchGo_one]; simp
    | r + 2 =>
      cases htok : (svc f).nextPageToken with
      | none => rw [fetchGo_succ_none svc r f acc htok]; simp
      | some t =>
        have hrec := ih (r + 1) (by omega) (f + 1) (acc ++ (svc f).items)
        rw [fetchGo_succ_some svc r f acc t htok]
        omega

theorem fetchGo_count_ge (svc : Nat → FeedPage) :
    ∀ r f acc, f + 1 ≤ (fetchGo svc r f acc).2 := by
  intro r
  induction r using Nat.strong_induction_on with
  | _ r ih =>
    intro f acc
    match r with
    | 0 => rw [fetchGo_zero]
    | 1 => rw [fetchGo_one]
    | r + 2 =>
      cases htok : (svc f).nextPageToken with
      | none => rw [fetchGo_succ_none svc r f acc htok]
      | some t =>
        have hrec := ih (r + 1) (by omega) (f + 1) (acc ++ (svc f).items)
        rw [fetchGo_succ_some svc r f acc t htok]
        omega

theorem fetchGo_len (svc : Nat → FeedPage) (hcap : ∀ j, (svc j).items.length ≤ 50) :
    ∀ r f acc, (fetchGo svc r f acc).1.length ≤ acc.length + 50 * max r 1 := by
  intro r
  induction r using Nat.strong_induction_on with
  | _ r ih =>
    intro f acc
    match r with
    | 0 =>
      rw [fetchGo_zero]
      simp only [List.length_append]
      have := hcap f
      omega
    | 1 =>
      rw [fetchGo_one]
      simp only [List.length_append]
      have := hcap f
      omega
    | r + 2 =>
      cases htok : (svc f).nextPageToken with
      | none =>
        rw [fetchGo_succ_none svc r f acc htok]
        simp only [List.length_append]
        have := hcap f
        omega
      | some t =>
        have hrec := ih (r + 1) (by omega) (f + 1) (acc ++ (svc f).items)
        rw [fetchGo_succ_some svc r f acc t htok]
        simp only [List.length_append] at hrec
        have := hcap f
        omega

theorem fetchGo_stop (svc : Nat → FeedPage) :
    ∀ m r f acc, m + 1 ≤ r →
      (∀ i, i < m → (svc (f + i)).nextPageToken ≠ none) →
      (svc (f + m)).nextPageToken = none →
      (fetchGo svc r f acc).2 = f + m + 1 := by
  intro m
  induction m with
  | zero =>
    intro r f acc hr htoks hnone
    simp only [Nat.add_zero] at hnone
    match r, hr with
    | 1, _ => rw [fetchGo_one]
    | r + 2, _ => rw [fetchGo_succ_none svc r f acc hnone]
  | succ m ih =>
    intro r f acc hr htoks hnone
    match r, hr with
    | r + 2, _ =>
      have h0 : (svc f).nextPageToken ≠ none := by
        have := htoks 0 (by omega)
        simpa using this
      cases htok : (svc f).nextPageToken with
      | none => exact absurd htok h0
      | some t =>
        rw [fetchGo_succ_some svc r f acc t htok]
        have := ih (r + 1) (f + 1) (acc ++ (svc f).items) (by omega)
          (fun i hi => by
            have := htoks (i + 1) (by omega)
            simpa [Nat.add_assoc, Nat.add_comm 1 i] using this)
          (by
            have : f + 1 + m = f + (m + 1) := by omega
            rw [this]
            exact hnone)
        omega

/-- C3: with a page budget `pages ≥ 1` and pages capped at `MAX_RESULTS = 50`
items, the walk issues between 1 and `pages` requests, returns at most
`50 * pages` stubs, and stops after exactly `k` requests when the `k`-th
response (1-indexed, `k < pages`) is the first to omit a continuation token.
Totality of `fetch_playlist_items_pages` is the termination of the loop. -/
theorem fetch_playlist_items_pages_bounds (svc : Nat → FeedPage) (pages : Nat)
    (hpg : 1 ≤ pages) (hcap : ∀ j, (svc j).items.length ≤ MAX_RESULTS) :
    (fetch_playlist_items_pages svc pages).2 ≤ pages ∧
    1 ≤ (fetch_playlist_items_pages svc pages).2 ∧
    (fetch_playlist_items_pages svc pages).1.length ≤ MAX_RESULTS * pages ∧
    ∀ k, 1 ≤ k → k < pages →
      (∀ j, j < k - 1 → (svc j).nextPageToken ≠ none) →
      (svc (k - 1)).nextPageToken = none →
      (fetch_playlist_items_pages svc pages).2 = k := by
  refine ⟨?_, ?_, ?_, ?_⟩
  · have := fetchGo_count_le svc pages 0 []
    simp only [fetch_playlist_items_pages]
    omega
  · have := fetchGo_count_ge svc pages 0 []
    simpa [fetch_playlist_items_pages] using this
  · have := fetchGo_len svc (by simpa [MAX_RESULTS] using hcap) pages 0 []
    simp only [fetch_playlist_items_pages, MAX_RESULTS]
    simp only [List.length_nil] at this
    omega
  · intro k hk1 hk2 htoks hnone
    have := fetchGo_stop svc (k - 1) pages 0 [] (by omega)
      (fun i hi => by simpa using htoks i hi)
      (by simpa using hnone)
    simp only [fetch_playlist_items_pages]
    omega

/-! ### Lemmas about `chunked` and `enrich_videos` -/

theorem chunkedGo_fuel {α : Type _} (n : Nat) :
    ∀ fuel₁ fuel₂ (l : List α), l.length ≤ fuel₁ → l.length ≤ fuel₂ →
      chunkedGo n fuel₁ l = chunkedGo n fuel₂ l := by
  intro fuel₁
  induction fuel₁ with
  | zero =>
    intro fuel₂ l h1 h2
    have : l = [] := List.length_eq_zero.mp (by omega)
    subst this
    cases fuel₂ <;> rfl
  | succ f₁ ih =>
    intro fuel₂ l h1 h2
    cases l with
    | nil => cases fuel₂ <;> rfl
    | cons x xs =>
      cases fuel₂ with
      | zero => simp at h2
      | succ f₂ =>
        by_cases hn : n = 0
        · simp [chunkedGo, hn]
        · simp only [chunkedGo, if_neg hn]
          congr 1
          apply ih
          · simp only [List.length_drop, List.length_cons] at *
            omega
          · simp only [List.length_drop, List.length_cons] at *
            omega

theorem chunked_nil {α : Type _} (n : Nat) : chunked ([] : List α) n = [] := rfl

theorem chunked_cons {α : Type _} (seq : List α) (n : Nat) (hs : seq ≠ []) (hn : n ≠ 0) :
    chunked seq n = seq.take n :: chunked (seq.drop n) n := by
  cases seq with
  | nil => exact absurd rfl hs
  | cons x xs =>
    show chunkedGo n (xs.length + 1) (x :: xs) = _
    simp only [chunkedGo, if_neg hn]
    congr 1
    apply chunkedGo_fuel
    · simp only [List.length_drop, List.length_cons]
      omega
    · exact Nat.le_refl _

theorem chunked_flatten {α : Type _} (n : Nat) (hn : n ≠ 0) :
    ∀ seq : List α, (chunked seq n).flatten = seq := by
  have main : ∀ (L : Nat) (seq : List α), seq.length ≤ L →
      (chunked seq n).flatten = seq := by
    intro L
    induction L with
    | zero =>
      intro seq h
      have : seq = [] := List.length_eq_zero.mp (by omega)
      subst this
      rfl
    | succ L ih =>
      intro seq h
      cases seq with
      | nil => rfl
      | cons x xs =>
        rw [chunked_cons (x :: xs) n (by simp) hn]
        simp only [List.flatten_cons]
        rw [ih]
        · exact List.take_append_drop n (x :: xs)
        · simp only [List.length_drop, List.length_cons] at *
          omega
  exact fun seq => main seq.length seq (Nat.le_refl _)

theorem chunked_length_le {α : Type _} (n : Nat) (hn : n ≠ 0) :
    ∀ (seq : List α), ∀ c ∈ chunked seq n, c.length ≤ n := by
  have main : ∀ (L : Nat) (seq : List α), seq.length ≤ L →
      ∀ c ∈ chunked seq n, c.length ≤ n := by
    intro L
    induction L with
    | zero =>
      intro seq h c hc
      have : seq = [] := List.length_eq_zero.mp (by omega)
      subst this
      simp [chunked_nil] at hc
    | succ L ih =>
      intro seq h c hc
      cases seq with
      | nil => simp [chunked_nil] at hc
      | cons x xs =>
        rw [chunked_cons (x :: xs) n (by simp) hn] at hc
        rcases List.mem_cons.mp hc with rfl | hc
        · simp
        · refine ih ((x :: xs).drop n) ?_ c hc
          simp only [List.length_drop, List.length_cons] at *
          omega
  exact fun seq => main seq.length seq (Nat.le_refl _)

theorem mem_chunked_iff {α : Type _} (n : Nat) (hn : n ≠ 0) (seq : List α) (v : α) :
    (∃ c ∈ chunked seq n, v ∈ c) ↔ v ∈ seq := by
  constructor
  · rintro ⟨c, hc, hv⟩
    have := List.mem_flatten.mpr ⟨c, hc, hv⟩
    rwa [chunked_flatten n hn] at this
  · intro hv
    have : v ∈ (chunked seq n).flatten := by rwa [chunked_flatten n hn]
    exact List.mem_flatten.mp this

theorem foldl_dictInsert_none (resp : List (String × Detail))
    (out : String → Option Detail) (v : String) :
    (resp.foldl dictInsert out) v = none ↔
      (out v = none ∧ ∀ p ∈ resp, p.1 ≠ v) := by
  induction resp generalizing out with
  | nil => simp
  | cons p ps ih =>
    simp only [List.foldl_cons, ih, List.mem_cons]
    constructor
    · rintro ⟨h1, h2⟩
      by_cases hv : v = p.1
      · simp [dictInsert, hv] at h1
      · simp only [dictInsert, if_neg hv] at h1
        refine ⟨h1, ?_⟩
        rintro q (rfl | hq)
        · exact fun hc => hv hc.symm
        · exact h2 q hq
    · rintro ⟨h1, h2⟩
      have hv : p.1 ≠ v := h2 p (Or.inl rfl)
      refine ⟨?_, fun q hq => h2 q (Or.inr hq)⟩
      simp only [dictInsert]
      rw [if_neg (fun hc => hv hc.symm)]
      exact h1

theorem foldl_dictInsert_some (resp : List (String × Detail))
    (out : String → Option Detail) (v : String) (d : Detail)
    (h : (resp.foldl dictInsert out) v = some d) :
    (v, d) ∈ resp ∨ out v = some d := by
  induction resp generalizing out with
  | nil => simpa using h
  | cons p ps ih =>
    simp only [List.foldl_cons] at h
    rcases ih (dictInsert out p) h with hmem | hout
    · exact Or.inl (List.mem_cons_of_mem p hmem)
    · by_cases hv : v = p.1
      · left
        simp only [dictInsert, if_pos hv] at hout
        have hd : p.2 = d := Option.some_injective _ hout
        have hp : p = (v, d) := by
          cases p with
          | mk a b =>
            simp only at hv hd
            simp [hv, hd]
        rw [← hp]
        exact List.mem_cons_self p ps
      · simp only [dictInsert, if_neg hv] at hout
        exact Or.inr hout

theorem foldl_dictInsert_enrichSvc (f : String → Option Detail) (c : List String)
    (out : String → Option Detail) (v : String) :
    ((enrichSvc f c).foldl dictInsert out) v =
      if v ∈ c ∧ (f v).isSome then f v else out v := by
  induction c generalizing out with
  | nil => simp [enrichSvc]
  | cons u us ih =>
    cases hu : f u with
    | none =>
      have he : enrichSvc f (u :: us) = enrichSvc f us := by
        simp [enrichSvc, hu]
      rw [he, ih]
      by_cases hv : v = u
      · subst hv
        simp [hu]
      · simp [List.mem_cons, hv]
    | some d =>
      have he : enrichSvc f (u :: us) = (u, d) :: enrichSvc f us := by
        simp [enrichSvc, hu]
      rw [he, List.foldl_cons, ih]
      by_cases hv : v = u
      · subst hv
        simp [hu, dictInsert]
      · have hd : dictInsert out (u, d) v = out v := by
          simp [dictInsert, hv]
        rw [hd]
        simp [List.mem_cons, hv]

theorem enrich_chunks_none (svc : List String → List (String × Detail))
    (chunks : List (List String)) (g : String → Option Detail) (v : String) :
    (chunks.foldl (fun out chunk => (svc chunk).foldl dictInsert out) g) v = none ↔
      (g v = none ∧ ∀ c ∈ chunks, ∀ p ∈ svc c, p.1 ≠ v) := by
  induction chunks generalizing g with
  | nil => simp
  | cons c cs ih =>
    simp only [List.foldl_cons, ih, foldl_dictInsert_none, List.mem_cons]
    constructor
    · rintro ⟨⟨h1, h2⟩, h3⟩
      refine ⟨h1, ?_⟩
      rintro c2 (rfl | hc2)
      · exact h2
      · exact h3 c2 hc2
    · rintro ⟨h1, h2⟩
      exact ⟨⟨h1, h2 c (Or.inl rfl)⟩, fun c2 hc2 => h2 c2 (Or.inr hc2)⟩

theorem enrich_chunks_some (svc : List String → List (String × Detail))
    (chunks : List (List String)) (g : String → Option Detail) (v : String) (d : Detail)
    (h : (chunks.foldl (fun out chunk => (svc chunk).foldl dictInsert out) g) v = some d) :
    (∃ c ∈ chunks, (v, d) ∈ svc c) ∨ g v = some d := by
  induction chunks generalizing g with
  | nil => exact Or.inr (by simpa using h)
  | cons c cs ih =>
    simp only [List.foldl_cons] at h
    rcases ih ((svc c).foldl dictInsert g) h with ⟨c2, hc2, hv⟩ | hout
    · exact Or.inl ⟨c2, List.mem_cons_of_mem c hc2, hv⟩
    · rcases foldl_dictInsert_some (svc c) g v d hout with hmem | hg
      · exact Or.inl ⟨c, List.mem_cons_self c cs, hmem⟩
      · exact Or.inr hg

theorem enrich_chunks_pointwise (f : String → Option Detail)
    (chunks : List (List String)) (g : String → Option Detail) (v : String) :
    (chunks.foldl (fun out chunk => (enrichSvc f chunk).foldl dictInsert out) g) v =
      if (∃ c ∈ chunks, v ∈ c) ∧ (f v).isSome then f v else g v := by
  induction chunks generalizing g with
  | nil => simp
  | cons c cs ih =>
    simp only [List.foldl_cons, ih, foldl_dictInsert_enrichSvc, List.mem_cons]
    by_cases hs : (f v).isSome
    · by_cases hc : v ∈ c
      · have h1 : ∃ c2, (c2 = c ∨ c2 ∈ cs) ∧ v ∈ c2 := ⟨c, Or.inl rfl, hc⟩
        by_cases h2 : ∃ c2 ∈ cs, v ∈ c2
        · simp [hs, hc, h1, h2]
        · simp [hs, hc, h1, h2]
      · by_cases h2 : ∃ c2 ∈ cs, v ∈ c2
        · have h1 : ∃ c2, (c2 = c ∨ c2 ∈ cs) ∧ v ∈ c2 := by
            obtain ⟨c2, hc2, hv2⟩ := h2
            exact ⟨c2, Or.inr hc2, hv2⟩
          simp [hs, hc, h1, h2]
        · have h1 : ¬ ∃ c2, (c2 = c ∨ c2 ∈ cs) ∧ v ∈ c2 := by
            rintro ⟨c2, rfl | hc2, hv2⟩
            · exact hc hv2
            · exact h2 ⟨c2, hc2, hv2⟩
          simp [hs, hc, h1, h2]
    · simp [hs]

/-- The per-id view of `videos.list`: enriching through `enrichSvc f` looks up
each requested id in `f` and omits ids the service does not know. -/
theorem enrich_pointwise (f : String → Option Detail) (ids : List String) (v : String) :
    enrich_videos (enrichSvc f) ids v = if v ∈ ids then f v else none := by
  show ((chunked ids BATCH_SIZE_VIDEOS).foldl
      (fun out chunk => (enrichSvc f chunk).foldl dictInsert out) (fun _ => none)) v = _
  rw [enrich_chunks_pointwise]
  have hmem : (∃ c ∈ chunked ids BATCH_SIZE_VIDEOS, v ∈ c) ↔ v ∈ ids :=
    mem_chunked_iff BATCH_SIZE_VIDEOS (by simp [BATCH_SIZE_VIDEOS]) ids v
  by_cases hv : v ∈ ids
  · by_cases hs : (f v).isSome
    · simp [hmem, hv, hs]
    · have : f v = none := Option.not_isSome_iff_eq_none.mp hs
      simp [hmem, hv, hs, this]
  · simp [hmem, hv]

/-- C4: enrichment splits the ids into consecutive chunks of at most
`BATCH_SIZE_VIDEOS = 50` whose concatenation is the input (no id is split
across calls, 120 ids give call sizes 50, 50, 20 — one call per chunk), and
the result is the merged mapping of the chunk responses: an id is unmapped
exactly when no chunk response carries it, and every mapping comes from some
chunk response. -/
theorem enrich_videos_chunking (svc : List String → List (String × Detail))
    (ids : List String) (v : String) (d : Detail) :
    (chunked ids BATCH_SIZE_VIDEOS).flatten = ids ∧
    (∀ c ∈ chunked ids BATCH_SIZE_VIDEOS, c.length ≤ BATCH_SIZE_VIDEOS) ∧
    (ids.length = 120 →
      (chunked ids BATCH_SIZE_VIDEOS).map List.length = [50, 50, 20]) ∧
    (enrich_videos svc ids v = none ↔
      ∀ c ∈ chunked ids BATCH_SIZE_VIDEOS, ∀ p ∈ svc c, p.1 ≠ v) ∧
    (enrich_videos svc ids v = some d →
      ∃ c ∈ chunked ids BATCH_SIZE_VIDEOS, (v, d) ∈ svc c) := by
  have hn : BATCH_SIZE_VIDEOS ≠ 0 := by simp [BATCH_SIZE_VIDEOS]
  refine ⟨chunked_flatten _ hn ids, chunked_length_le _ hn ids, ?_, ?_, ?_⟩
  · intro h120
    have h1 : ids ≠ [] := by
      intro hnil
      rw [hnil] at h120
      simp at h120
    rw [chunked_cons ids BATCH_SIZE_VIDEOS h1 hn]
    have hd1 : (ids.drop BATCH_SIZE_VIDEOS).length = 70 := by
      simp [BATCH_SIZE_VIDEOS, h120]
    have h2 : ids.drop BATCH_SIZE_VIDEOS ≠ [] := by
      intro hnil
      rw [hnil] at hd1
      simp at hd1
    rw [chunked_cons _ BATCH_SIZE_VIDEOS h2 hn]
    have hd2 : ((ids.drop BATCH_SIZE_VIDEOS).drop BATCH_SIZE_VIDEOS).length = 20 := by
      simp only [List.length_drop, BATCH_SIZE_VIDEOS]
      omega
    have h3 : (ids.drop BATCH_SIZE_VIDEOS).drop BATCH_SIZE_VIDEOS ≠ [] := by
      intro hnil
      rw [hnil] at hd2
      simp at hd2
    rw [chunked_cons _ BATCH_SIZE_VIDEOS h3 hn]
    have hd3 : (((ids.drop BATCH_SIZE_VIDEOS).drop BATCH_SIZE_VIDEOS).drop
        BATCH_SIZE_VIDEOS) = [] := by
      refine List.eq_nil_of_length_eq_zero ?_
      simp only [List.length_drop, BATCH_SIZE_VIDEOS]
      omega
    rw [hd3, chunked_nil]
    simp [BATCH_SIZE_VIDEOS, List.length_take, h120, hd1, hd2]
  · show ((chunked ids BATCH_SIZE_VIDEOS).foldl
        (fun out chunk => (svc chunk).foldl dictInsert out) (fun _ => none)) v = none ↔ _
    rw [enrich_chunks_none]
    simp
  · intro h
    have := enrich_chunks_some svc (chunked ids BATCH_SIZE_VIDEOS) (fun _ => none) v d h
    rcases this with h1 | h2
    · exact h1
    · simp at h2

/-- Witness for C2: four 503s then a 200 sleep 2, 4, 8, 16 and return the
fifth response. -/
theorem post_with_retries_backoff_witness :
    (∀ i, i < 4 → isTransient (wSvcRetry i) = true) ∧
    (post_with_retries wSvcRetry 5).2 = [2, 4, 8, 16] ∧
    (post_with_retries wSvcRetry 5).1 = PostResult.ok 4 (wSvcRetry 4) := by
  have h : ∀ i, i < 4 → isTransient (wSvcRetry i) = true := by decide
  refine ⟨h, (post_with_retries_backoff wSvcRetry h).1, ?_⟩
  exact (post_with_retries_backoff wSvcRetry h).2.2.1 (by decide) (by decide)

/-- Witness for C3: a feed whose second response omits the token stops the
walk at exactly 2 of the 3 budgeted requests. -/
theorem fetch_playlist_items_pages_bounds_witness :
    (1 : Nat) ≤ 3 ∧ (∀ j, (wPages j).items.length ≤ MAX_RESULTS) ∧
    (fetch_playlist_items_pages wPages 3).2 = 2 := by
  have hcap : ∀ j, (wPages j).items.length ≤ MAX_RESULTS := by
    intro j
    by_cases hj : j = 0 <;> simp [wPages, hj, MAX_RESULTS]
  refine ⟨by omega, hcap, ?_⟩
  refine (fetch_playlist_items_pages_bounds wPages 3 (by omega) hcap).2.2.2 2
    (by omega) (by omega) ?_ ?_
  · intro j hj
    have : j = 0 := by omega
    subst this
    simp [wPages]
  · simp [wPages]

/-- Witness for C4: 120 ids are enriched in chunks of sizes 50, 50, 20, and
an id carried by no chunk response stays unmapped. -/
theorem enrich_videos_chunking_witness :
    (List.replicate 120 "x").length = 120 ∧
    (chunked (List.replicate 120 "x") BATCH_SIZE_VIDEOS).map List.length
      = [50, 50, 20] ∧
    enrich_videos (fun _ => []) (List.replicate 120 "x") "q" = none := by
  have h120 : (List.replicate 120 "x").length = 120 := by simp
  refine ⟨h120, ?_, ?_⟩
  · exact (enrich_videos_chunking (fun _ => []) (List.replicate 120 "x") "q"
      ⟨none, none, none, none, none⟩).2.2.1 h120
  · refine (enrich_videos_chunking (fun _ => []) (List.replicate 120 "x") "q"
      ⟨none, none, none, none, none⟩).2.2.2.1.mpr ?_
    intro c hc p hp
    simp at hp

/-! ### RecordWriter: sorting (C5) and header idempotence (C9) -/

/-- C5: `write_csv` appends the same stably sorted sequence to both sinks —
the output is a permutation of the input, pairwise ascending in the parsed
`published` instant, any two records already in key order keep their relative
order (stability, in particular for equal keys), and a record whose timestamp
fails to parse gets the least possible instant `0` (`datetime.min`), so it
sorts to the front rather than raising. -/
theorem write_csv_sorts_rows (lib : String → Option Nat) (today : String)
    (day alltime : Option (List CsvLine)) (rows : List Row) (hne : rows ≠ []) :
    (write_csv lib today day alltime rows).1
      = some (appendSink day (sortRows lib rows)) ∧
    (write_csv lib today day alltime rows).2.1
      = some (appendSink alltime (sortRows lib rows)) ∧
    (sortRows lib rows).Perm rows ∧
    (sortRows lib rows).Pairwise
      (fun a b => parse_iso_dt lib a.published ≤ parse_iso_dt lib b.published) ∧
    (∀ a b : Row, parse_iso_dt lib a.published ≤ parse_iso_dt lib b.published →
      [a, b].Sublist rows → [a, b].Sublist (sortRows lib rows)) ∧
    (∀ r : Row, lib (pyReplaceZ r.published) = none → parse_iso_dt lib r.published = 0) ∧
    (∀ r : Row, 0 ≤ parse_iso_dt lib r.published) := by
  have hble : ∀ a b : Row,
      (Nat.ble (parse_iso_dt lib a.published) (parse_iso_dt lib b.published) = true) ↔
        parse_iso_dt lib a.published ≤ parse_iso_dt lib b.published := by
    intro a b
    exact ⟨Nat.le_of_ble_eq_true, Nat.ble_eq_true_of_le⟩
  refine ⟨?_, ?_, ?_, ?_, ?_, ?_, ?_⟩
  · simp [write_csv, hne]
  · simp [write_csv, hne]
  · exact stableSort_perm _ rows
  · have := pairwise_stableSort
      (fun a b : Row =>
        Nat.ble (parse_iso_dt lib a.published) (parse_iso_dt lib b.published))
      (fun a b c hab hbc => by
        rw [hble] at *
        omega)
      (fun a b => by
        rw [hble, hble]
        omega)
      rows
    exact this.imp (fun h => (hble _ _).mp h)
  · intro a b hab hsub
    exact stableSort_pair _ ((hble a b).mpr hab) hsub
  · intro r hr
    simp [parse_iso_dt, hr]
  · intro r
    omega

/-- Witness for C5: two rows arriving out of order, one with an unparsable
timestamp, are emitted with the unparsable one first. -/
theorem write_csv_sorts_rows_witness :
    ([wRowLate, wRowBad] : List Row) ≠ [] ∧
    sortRows wLib [wRowLate, wRowBad] = [wRowBad, wRowLate] ∧
    (sortRows wLib [wRowLate, wRowBad]).Pairwise
      (fun a b => parse_iso_dt wLib a.published ≤ parse_iso_dt wLib b.published) := by
  have h := write_csv_sorts_rows wLib "d" none none [wRowLate, wRowBad] (by simp)
  exact ⟨by simp, by decide, h.2.2.2.1⟩

/-- How many header lines a sink holds (an absent file holds none). -/
def headerCount : Option (List CsvLine) → Nat
  | none => 0
  | some ls => ls.countP (fun l => l = CsvLine.header)

theorem countP_header_map_row (rows : List Row) :
    (rows.map CsvLine.row).countP (fun l => l = CsvLine.header) = 0 := by
  rw [List.countP_eq_zero]
  intro l hl
  obtain ⟨r, _, rfl⟩ := List.mem_map.mp hl
  simp

theorem headerCount_appendSink (file : Option (List CsvLine)) (sorted : List Row) :
    (appendSink file sorted).countP (fun l => l = CsvLine.header)
      = if file = none then 1 else headerCount file := by
  cases file with
  | none =>
    simp only [appendSink, Option.getD, if_pos rfl]
    rw [List.countP_append, countP_header_map_row]
    decide
  | some ls =>
    have : (some ls = none) = False := by simp
    simp only [appendSink, Option.getD, this, if_false, headerCount]
    rw [List.countP_append, countP_header_map_row]
    omega

/-- One step of the sink state under `write_csv`: the day and all-time files
after the call. -/
def writeStep (lib : String → Option Nat) (today : String)
    (fs : Option (List CsvLine) × Option (List CsvLine)) (rows : List Row) :
    Option (List CsvLine) × Option (List CsvLine) :=
  ((write_csv lib today fs.1 fs.2 rows).1, (write_csv lib today fs.1 fs.2 rows).2.1)

/-- C9: a run's append writes a header row into a sink exactly when that sink
does not exist yet (an existing sink's header count is untouched, and appended
data rows are never headers), so folding any sequence of appends from absent
sinks leaves at most one header row in each sink — never a second one. -/
theorem write_csv_header_once (lib : String → Option Nat) (today : String) :
    (∀ (day alltime : Option (List CsvLine)) (rows : List Row),
      headerCount (write_csv lib today day alltime rows).1
        = (if rows = [] then headerCount day
           else if day = none then 1 else headerCount day) ∧
      headerCount (write_csv lib today day alltime rows).2.1
        = (if rows = [] then headerCount alltime
           else if alltime = none then 1 else headerCount alltime)) ∧
    (∀ batches : List (List Row),
      headerCount (batches.foldl (writeStep lib today) (none, none)).1 ≤ 1 ∧
      headerCount (batches.foldl (writeStep lib today) (none, none)).2 ≤ 1) := by
  have hstep : ∀ (day alltime : Option (List CsvLine)) (rows : List Row),
      headerCount (write_csv lib today day alltime rows).1
        = (if rows = [] then headerCount day
           else if day = none then 1 else headerCount day) ∧
      headerCount (write_csv lib today day alltime rows).2.1
        = (if rows = [] then headerCount alltime
           else if alltime = none then 1 else headerCount alltime) := by
    intro day alltime rows
    by_cases hrows : rows = []
    · simp [write_csv, hrows]
    · constructor
      · have h1 : (write_csv lib today day alltime rows).1
            = some (appendSink day (sortRows lib rows)) := by
          simp [write_csv, hrows]
        rw [h1, if_neg hrows]
        show (appendSink day (sortRows lib rows)).countP (fun l => l = CsvLine.header) = _
        rw [headerCount_appendSink]
      · have h1 : (write_csv lib today day alltime rows).2.1
            = some (appendSink alltime (sortRows lib rows)) := by
          simp [write_csv, hrows]
        rw [h1, if_neg hrows]
        show (appendSink alltime (sortRows lib rows)).countP (fun l => l = CsvLine.header) = _
        rw [headerCount_appendSink]
  refine ⟨hstep, ?_⟩
  have inv : ∀ (batches : List (List Row)) (fs : Option (List CsvLine) × Option (List CsvLine)),
      headerCount fs.1 ≤ 1 → headerCount fs.2 ≤ 1 →
      headerCount (batches.foldl (writeStep lib today) fs).1 ≤ 1 ∧
      headerCount (batches.foldl (writeStep lib today) fs).2 ≤ 1 := by
    intro batches
    induction batches with
    | nil => intro fs h1 h2; exact ⟨h1, h2⟩
    | cons rows rest ih =>
      intro fs h1 h2
      rw [List.foldl_cons]
      refine ih (writeStep lib today fs rows) ?_ ?_
      · have he := (hstep fs.1 fs.2 rows).1
        show headerCount (write_csv lib today fs.1 fs.2 rows).1 ≤ 1
        rw [he]
        by_cases ha : rows = []
        · simpa [ha] using h1
        · by_cases hb : fs.1 = none
          · simp [ha, hb]
          · simpa [ha, hb] using h1
      · have he := (hstep fs.1 fs.2 rows).2
        show headerCount (write_csv lib today fs.1 fs.2 rows).2.1 ≤ 1
        rw [he]
        by_cases ha : rows = []
        · simpa [ha] using h2
        · by_cases hb : fs.2 = none
          · simp [ha, hb]
          · simpa [ha, hb] using h2
  intro batches
  exact inv batches (none, none) (by simp [headerCount]) (by simp [headerCount])

/-! ### ResponseNormalizer: the `points`-as-string behaviour (C7) -/

theorem pointElem_singleton (c : Char) :
    pointElem (PyJson.str (String.singleton c))
      = if c.isWhitespace then none else some (String.singleton c) := by
  have hsing : String.singleton c = ⟨[c]⟩ := rfl
  have hstrip : pyStripWs (String.singleton c)
      = if c.isWhitespace then "" else String.singleton c := by
    rw [hsing]
    by_cases hc : c.isWhitespace
    · simp [pyStripWs, pyStrip, hc]
    · simp [pyStripWs, pyStrip, hc]
  by_cases hc : c.isWhitespace
  · simp [pointElem, hstrip, hc]
  · have hne : String.singleton c ≠ "" := by
      rw [hsing]
      simp [String.ext_iff]
    simp [pointElem, hstrip, hc, hne]

theorem points_of_string (s : String) :
    pointsOf (some (PyJson.str s))
      = some ((s.data.filter (fun c => !c.isWhitespace)).map String.singleton) := by
  simp only [pointsOf]
  congr 1
  induction s.data with
  | nil => rfl
  | cons c cs ih =>
    simp only [List.map_cons, List.filterMap_cons, List.filter_cons, pointElem_singleton]
    by_cases hc : c.isWhitespace
    · simp [hc, ih]
    · simp [hc, ih]

/-- Counterexample for C7: on the spec's literal input the normalizer does
not produce headline `"y"` with points `["a", "b"]` — `json.loads` fails on
the whole string (there is no brace-span slicing), so the fallback treats the
entire line as the one-liner and returns no points. -/
theorem parse_json_or_fallback_cex :
    parse_json_or_fallback none cexText ≠ ("y", ["a", "b"]) := by
  decide

/-- C7 amended: when the structured parse succeeds and `points` is a single
string, the comprehension iterates the string's characters, so the points are
its non-whitespace characters as one-character strings, capped at 8 — there
is no splitting on newlines, semicolons or Chinese enumeration punctuation;
and the spec's literal input fails the structured parse entirely, falling
back to line splitting: the whole line becomes the one-liner and the point
list is empty. -/
theorem parse_json_or_fallback_points_string (fields : List (String × PyJson))
    (one pts : String) (text : String)
    (hone : jsonGet fields "one_line" = some (PyJson.str one))
    (hpts : jsonGet fields "points" = some (PyJson.str pts)) :
    parse_json_or_fallback (some (PyJson.obj fields)) text
      = (pyTake 60 (pyStripWs one),
          (((pts.data.filter (fun c => !c.isWhitespace)).map String.singleton).take 8)) ∧
    parse_json_or_fallback none cexText = (cexText, []) := by
  constructor
  · simp only [parse_json_or_fallback, structuredPart, hone, hpts, points_of_string,
      pyOrEmptyStr, Option.bind_eq_bind, Option.some_bind]
  · decide

/-- Witness for the amended C7: `points := "a；b"` yields the three points
`"a"`, `"；"`, `"b"` — the full-width semicolon is itself a point, not a
separator. -/
theorem parse_json_or_fallback_points_string_witness :
    jsonGet wFields "one_line" = some (PyJson.str "y") ∧
    jsonGet wFields "points" = some (PyJson.str "a；b") ∧
    parse_json_or_fallback (some (PyJson.obj wFields)) ""
      = ("y", ["a", "；", "b"]) := by
  have h := parse_json_or_fallback_points_string wFields "y" "a；b" "" rfl rfl
  exact ⟨rfl, rfl, h.1.trans (by decide)⟩

/-! ### Lemmas about the per-item loop (`rowStep`) -/

theorem mem_pySetOfList (l : List String) (v : String) :
    v ∈ pySetOfList l ↔ v ∈ l := by
  induction l with
  | nil => simp [pySetOfList]
  | cons x xs ih =>
    simp only [pySetOfList]
    by_cases hx : x ∈ pySetOfList xs
    · simp only [if_pos hx, ih, List.mem_cons]
      constructor
      · exact Or.inr
      · rintro (rfl | hv)
        · exact ih.mp hx
        · exact hv
    · simp [if_neg hx, ih, List.mem_cons]

theorem rowStep_seen_mono (ch : String) (details : String → Option Detail)
    (acc : List Row × List String) (it : FeedItem) (v : String) (hv : v ∈ acc.2) :
    v ∈ (rowStep ch details acc it).2 := by
  simp only [rowStep]
  cases details it.videoId with
  | none => exact hv
  | some dv =>
    by_cases hm : it.videoId ∈ acc.2
    · simp only [if_pos hm]
      exact hv
    · simp only [if_neg hm]
      exact List.mem_cons_of_mem _ hv

theorem foldl_rowStep_seen_mono (ch : String) (details : String → Option Detail)
    (items : List FeedItem) :
    ∀ (acc : List Row × List String) (v : String), v ∈ acc.2 →
      v ∈ (items.foldl (rowStep ch details) acc).2 := by
  induction items with
  | nil => exact fun acc v hv => hv
  | cons it rest ih =>
    intro acc v hv
    rw [List.foldl_cons]
    exact ih (rowStep ch details acc it) v (rowStep_seen_mono ch details acc it v hv)

theorem rowStep_inv (ch : String) (details : String → Option Detail)
    (seen0 : List String) (acc : List Row × List String) (it : FeedItem)
    (h : ∀ v, v ∈ acc.2 ↔ v ∈ seen0 ∨ v ∈ acc.1.map Row.video_id) :
    ∀ v, v ∈ (rowStep ch details acc it).2 ↔
      v ∈ seen0 ∨ v ∈ (rowStep ch details acc it).1.map Row.video_id := by
  intro v
  simp only [rowStep]
  cases details it.videoId with
  | none => exact h v
  | some dv =>
    by_cases hm : it.videoId ∈ acc.2
    · simp only [if_pos hm]
      exact h v
    · simp only [if_neg hm, List.mem_cons, List.map_append, List.mem_append, List.map_cons]
      constructor
      · rintro (rfl | hv)
        · right
          simp [buildRow]
        · rcases (h v).mp hv with h1 | h1
          · exact Or.inl h1
          · exact Or.inr (Or.inl h1)
      · rintro (h1 | h1 | h1)
        · exact Or.inr ((h v).mpr (Or.inl h1))
        · exact Or.inr ((h v).mpr (Or.inr h1))
        · left
          have h2 : v = (buildRow ch it dv).video_id := by simpa using h1
          rw [h2]
          simp [buildRow]

theorem foldl_rowStep_inv (ch : String) (details : String → Option Detail)
    (seen0 : List String) (items : List FeedItem) :
    ∀ (acc : List Row × List String),
      (∀ v, v ∈ acc.2 ↔ v ∈ seen0 ∨ v ∈ acc.1.map Row.video_id) →
      ∀ v, v ∈ (items.foldl (rowStep ch details) acc).2 ↔
        v ∈ seen0 ∨ v ∈ (items.foldl (rowStep ch details) acc).1.map Row.video_id := by
  induction items with
  | nil => exact fun acc h => h
  | cons it rest ih =>
    intro acc h
    rw [List.foldl_cons]
    exact ih (rowStep ch details acc it) (rowStep_inv ch details seen0 acc it h)

theorem rowStep_noop (ch : String) (details : String → Option Detail)
    (acc : List Row × List String) (it : FeedItem)
    (h : it.videoId ∈ acc.2 ∨ details it.videoId = none) :
    rowStep ch details acc it = acc := by
  cases hd : details it.videoId with
  | none => simp only [rowStep, hd]
  | some dv =>
    rcases h with hm | hnone
    · simp only [rowStep, hd, if_pos hm]
    · exact absurd (hd ▸ hnone) (by simp)

theorem foldl_rowStep_noop (ch : String) (details : String → Option Detail)
    (items : List FeedItem) :
    ∀ (acc : List Row × List String),
      (∀ it ∈ items, it.videoId ∈ acc.2 ∨ details it.videoId = none) →
      items.foldl (rowStep ch details) acc = acc := by
  induction items with
  | nil => exact fun acc _ => rfl
  | cons it rest ih =>
    intro acc h
    rw [List.foldl_cons, rowStep_noop ch details acc it (h it (List.mem_cons_self it rest))]
    exact ih acc (fun it2 h2 => h it2 (List.mem_cons_of_mem it h2))

theorem rowStep_prov (ch : String) (details : String → Option Detail)
    (acc : List Row × List String) (it : FeedItem) :
    ∀ r ∈ (rowStep ch details acc it).1,
      r ∈ acc.1 ∨ ∃ it2 dv, r = buildRow ch it2 dv := by
  intro r hr
  cases hd : details it.videoId with
  | none =>
    simp only [rowStep, hd] at hr
    exact Or.inl hr
  | some dv =>
    by_cases hm : it.videoId ∈ acc.2
    · simp only [rowStep, hd, if_pos hm] at hr
      exact Or.inl hr
    · simp only [rowStep, hd, if_neg hm] at hr
      simp only [List.mem_append, List.mem_singleton] at hr
      rcases hr with hr | hr
      · exact Or.inl hr
      · exact Or.inr ⟨it, dv, hr⟩

theorem foldl_rowStep_prov (ch : String) (details : String → Option Detail)
    (items : List FeedItem) :
    ∀ (acc : List Row × List String),
      ∀ r ∈ (items.foldl (rowStep ch details) acc).1,
        r ∈ acc.1 ∨ ∃ it2 dv, r = buildRow ch it2 dv := by
  induction items with
  | nil => exact fun acc r hr => Or.inl hr
  | cons it rest ih =>
    intro acc r hr
    rw [List.foldl_cons] at hr
    rcases ih (rowStep ch details acc it) r hr with h1 | h1
    · exact rowStep_prov ch details acc it r h1
    · exact Or.inr h1

theorem foldl_rowStep_covers (ch : String) (details : String → Option Detail)
    (f : String → Option Detail) (items : List FeedItem) :
    ∀ (acc : List Row × List String),
      (∀ it ∈ items, it.videoId ∉ acc.2 → details it.videoId = f it.videoId) →
      ∀ it ∈ items, (f it.videoId).isSome →
        it.videoId ∈ (items.foldl (rowStep ch details) acc).2 := by
  induction items with
  | nil => intro acc _ it hit; simp at hit
  | cons it0 rest ih =>
    intro acc hdet it hit hsome
    rw [List.foldl_cons]
    have hmono := foldl_rowStep_seen_mono ch details rest
    rcases List.mem_cons.mp hit with rfl | hit2
    · by_cases hm : it.videoId ∈ acc.2
      · exact hmono _ _ (rowStep_seen_mono ch details acc it _ hm)
      · have hd : details it.videoId = f it.videoId :=
          hdet it (List.mem_cons_self it rest) hm
        obtain ⟨dv, hdv⟩ := Option.isSome_iff_exists.mp hsome
        have hstep : it.videoId ∈ (rowStep ch details acc it).2 := by
          simp only [rowStep, hd, hdv, if_neg hm]
          exact List.mem_cons_self _ _
        exact hmono _ _ hstep
    · refine ih (rowStep ch details acc it0) ?_ it hit2 hsome
      intro it3 h3 hnm
      refine hdet it3 (List.mem_cons_of_mem it0 h3) ?_
      intro hc
      exact hnm (rowStep_seen_mono ch details acc it0 _ hc)

/-! ### Lemmas about the per-channel block (`processChannel`) -/

theorem mem_fresh_iff (items : List FeedItem) (seen : List String) (v : String) :
    v ∈ items.filterMap
        (fun it => if it.videoId ∈ seen then none else some it.videoId) ↔
      (∃ it ∈ items, it.videoId = v) ∧ v ∉ seen := by
  rw [List.mem_filterMap]
  constructor
  · rintro ⟨it, hit, hv⟩
    by_cases hm : it.videoId ∈ seen
    · simp [hm] at hv
    · rw [if_neg hm] at hv
      obtain rfl := Option.some_injective _ hv
      exact ⟨⟨it, hit, rfl⟩, hm⟩
  · rintro ⟨⟨it, hit, rfl⟩, hm⟩
    exact ⟨it, hit, by rw [if_neg hm]⟩

theorem fresh_eq_nil_iff (items : List FeedItem) (seen : List String) :
    items.filterMap
        (fun it => if it.videoId ∈ seen then none else some it.videoId) = [] ↔
      ∀ it ∈ items, it.videoId ∈ seen := by
  rw [List.filterMap_eq_nil_iff]
  constructor
  · intro h it hit
    have := h it hit
    by_cases hm : it.videoId ∈ seen
    · exact hm
    · simp [hm] at this
  · intro h it hit
    rw [if_pos (h it hit)]

theorem processChannel_seen_mono (env : RunEnv) (acc : List Row × List String)
    (ch : String) (v : String) (hv : v ∈ acc.2) :
    v ∈ (processChannel env acc ch).2 := by
  cases hu : env.uploadsOf ch with
  | error e =>
    simp only [processChannel, hu]
    exact hv
  | ok o =>
    cases o with
    | none =>
      simp only [processChannel, hu]
      exact hv
    | some up =>
      simp only [processChannel, hu]
      by_cases hf : ((fetch_playlist_items_pages (env.feedPages up) env.pages).1).filterMap
          (fun it => if it.videoId ∈ acc.2 then none else some it.videoId) = []
      · rw [if_pos hf]
        exact hv
      · rw [if_neg hf]
        exact foldl_rowStep_seen_mono _ _ _ acc v hv

theorem processChannel_inv (env : RunEnv) (seen0 : List String)
    (acc : List Row × List String) (ch : String)
    (h : ∀ v, v ∈ acc.2 ↔ v ∈ seen0 ∨ v ∈ acc.1.map Row.video_id) :
    ∀ v, v ∈ (processChannel env acc ch).2 ↔
      v ∈ seen0 ∨ v ∈ (processChannel env acc ch).1.map Row.video_id := by
  cases hu : env.uploadsOf ch with
  | error e =>
    simp only [processChannel, hu]
    exact h
  | ok o =>
    cases o with
    | none =>
      simp only [processChannel, hu]
      exact h
    | some up =>
      simp only [processChannel, hu]
      by_cases hf : ((fetch_playlist_items_pages (env.feedPages up) env.pages).1).filterMap
          (fun it => if it.videoId ∈ acc.2 then none else some it.videoId) = []
      · rw [if_pos hf]
        exact h
      · rw [if_neg hf]
        exact foldl_rowStep_inv _ _ seen0 _ acc h

theorem processChannel_prov (env : RunEnv) (acc : List Row × List String) (ch : String) :
    ∀ r ∈ (processChannel env acc ch).1,
      r ∈ acc.1 ∨ ∃ it dv, r = buildRow ch it dv := by
  intro r hr
  cases hu : env.uploadsOf ch with
  | error e =>
    simp only [processChannel, hu] at hr
    exact Or.inl hr
  | ok o =>
    cases o with
    | none =>
      simp only [processChannel, hu] at hr
      exact Or.inl hr
    | some up =>
      simp only [processChannel, hu] at hr
      by_cases hf : ((fetch_playlist_items_pages (env.feedPages up) env.pages).1).filterMap
          (fun it => if it.videoId ∈ acc.2 then none else some it.videoId) = []
      · rw [if_pos hf] at hr
        exact Or.inl hr
      · rw [if_neg hf] at hr
        exact foldl_rowStep_prov _ _ _ acc r hr

theorem processChannel_covers (env : RunEnv) (acc : List Row × List String)
    (ch up : String) (hu : env.uploadsOf ch = .ok (some up)) :
    ∀ it ∈ (fetch_playlist_items_pages (env.feedPages up) env.pages).1,
      (env.detail it.videoId).isSome →
      it.videoId ∈ (processChannel env acc ch).2 := by
  intro it hit hsome
  simp only [processChannel, hu]
  set items := (fetch_playlist_items_pages (env.feedPages up) env.pages).1 with hitems
  set fresh := items.filterMap
    (fun it => if it.videoId ∈ acc.2 then none else some it.videoId) with hfresh
  by_cases hf : fresh = []
  · rw [if_pos hf]
    have := (fresh_eq_nil_iff items acc.2).mp hf it hit
    exact this
  · rw [if_neg hf]
    refine foldl_rowStep_covers ch (enrich_videos (enrichSvc env.detail) fresh)
      env.detail items acc ?_ it hit hsome
    intro it2 hit2 hnm
    rw [enrich_pointwise]
    rw [if_pos ((mem_fresh_iff items acc.2 it2.videoId).mpr ⟨⟨it2, hit2, rfl⟩, hnm⟩)]

theorem processChannel_noop (env : RunEnv) (acc : List Row × List String) (ch : String)
    (h : ∀ up, env.uploadsOf ch = .ok (some up) →
      ∀ it ∈ (fetch_playlist_items_pages (env.feedPages up) env.pages).1,
        (env.detail it.videoId).isSome → it.videoId ∈ acc.2) :
    processChannel env acc ch = acc := by
  cases hu : env.uploadsOf ch with
  | error e => simp only [processChannel, hu]
  | ok o =>
    cases o with
    | none => simp only [processChannel, hu]
    | some up =>
      simp only [processChannel, hu]
      set items := (fetch_playlist_items_pages (env.feedPages up) env.pages).1 with hitems
      set fresh := items.filterMap
        (fun it => if it.videoId ∈ acc.2 then none else some it.videoId) with hfresh
      by_cases hf : fresh = []
      · rw [if_pos hf]
      · rw [if_neg hf]
        refine foldl_rowStep_noop ch _ items acc ?_
        intro it hit
        by_cases hm : it.videoId ∈ acc.2
        · exact Or.inl hm
        · right
          rw [enrich_pointwise]
          have hnsome : (env.detail it.videoId).isSome = false := by
            by_cases hs : (env.detail it.videoId).isSome
            · exact absurd (h up hu it hit hs) hm
            · simpa using hs
          have hnone : env.detail it.videoId = none :=
            Option.not_isSome_iff_eq_none.mp (by simp [hnsome])
          rw [hnone]
          simp

/-! ### Lemmas about the channel fold in `run` -/

theorem foldl_pc_seen_mono (env : RunEnv) (cs : List String) :
    ∀ (acc : List Row × List String) (v : String), v ∈ acc.2 →
      v ∈ (cs.foldl (processChannel env) acc).2 := by
  induction cs with
  | nil => exact fun acc v hv => hv
  | cons ch rest ih =>
    intro acc v hv
    rw [List.foldl_cons]
    exact ih (processChannel env acc ch) v (processChannel_seen_mono env acc ch v hv)

theorem foldl_pc_inv (env : RunEnv) (seen0 : List String) (cs : List String) :
    ∀ (acc : List Row × List String),
      (∀ v, v ∈ acc.2 ↔ v ∈ seen0 ∨ v ∈ acc.1.map Row.video_id) →
      ∀ v, v ∈ (cs.foldl (processChannel env) acc).2 ↔
        v ∈ seen0 ∨ v ∈ (cs.foldl (processChannel env) acc).1.map Row.video_id := by
  induction cs with
  | nil => exact fun acc h => h
  | cons ch rest ih =>
    intro acc h
    rw [List.foldl_cons]
    exact ih (processChannel env acc ch) (processChannel_inv env seen0 acc ch h)

theorem foldl_pc_prov (env : RunEnv) (cs : List String) :
    ∀ (acc : List Row × List String),
      ∀ r ∈ (cs.foldl (processChannel env) acc).1,
        r ∈ acc.1 ∨ ∃ ch it dv, r = buildRow ch it dv := by
  induction cs with
  | nil => exact fun acc r hr => Or.inl hr
  | cons ch rest ih =>
    intro acc r hr
    rw [List.foldl_cons] at hr
    rcases ih (processChannel env acc ch) r hr with h1 | h1
    · rcases processChannel_prov env acc ch r h1 with h2 | ⟨it, dv, h2⟩
      · exact Or.inl h2
      · exact Or.inr ⟨ch, it, dv, h2⟩
    · exact Or.inr h1

theorem foldl_pc_covers (env : RunEnv) (cs : List String) :
    ∀ (acc : List Row × List String),
      ∀ ch ∈ cs, ∀ up, env.uploadsOf ch = .ok (some up) →
        ∀ it ∈ (fetch_playlist_items_pages (env.feedPages up) env.pages).1,
          (env.detail it.videoId).isSome →
          it.videoId ∈ (cs.foldl (processChannel env) acc).2 := by
  induction cs with
  | nil => intro acc ch hch; simp at hch
  | cons ch0 rest ih =>
    intro acc ch hch up hu it hit hsome
    rw [List.foldl_cons]
    rcases List.mem_cons.mp hch with rfl | hch2
    · exact foldl_pc_seen_mono env rest _ _
        (processChannel_covers env acc ch up hu it hit hsome)
    · exact ih (processChannel env acc ch0) ch hch2 up hu it hit hsome

theorem foldl_pc_noop (env : RunEnv) (cs : List String) :
    ∀ (acc : List Row × List String),
      (∀ ch ∈ cs, ∀ up, env.uploadsOf ch = .ok (some up) →
        ∀ it ∈ (fetch_playlist_items_pages (env.feedPages up) env.pages).1,
          (env.detail it.videoId).isSome → it.videoId ∈ acc.2) →
      cs.foldl (processChannel env) acc = acc := by
  induction cs with
  | nil => exact fun acc _ => rfl
  | cons ch rest ih =>
    intro acc h
    rw [List.foldl_cons,
      processChannel_noop env acc ch (h ch (List.mem_cons_self ch rest))]
    exact ih acc (fun ch2 h2 => h ch2 (List.mem_cons_of_mem ch h2))

/-! ### The run-level claims -/

/-- C6: when the subscriptions listing fails (`HttpError` from
`list_all_subscriptions`), `run` exits via `sys.exit(1)` with the world — both
CSV sinks and the persisted dedup state — exactly as it was: zero new records
and no `write_state`. -/
theorem run_catalog_error_no_effect (env : RunEnv) (w : World)
    (h : env.subs = Except.error ()) :
    run env w = RunResult.exited w := by
  simp [run, h]

/-- Witness for C6. -/
theorem run_catalog_error_no_effect_witness :
    wEnvFail.subs = Except.error () ∧ run wEnvFail wEmpty = RunResult.exited wEmpty :=
  ⟨rfl, run_catalog_error_no_effect wEnvFail wEmpty rfl⟩

/-- C10: a finished run persists a sorted seen-list whose members are exactly
the loaded seen-ids plus the video ids of the rows emitted this run; in
particular ids returned by pagination but missing from enrichment got no row,
are not marked seen, and stay eligible for a future run. -/
theorem run_state_tracks_rows (env : RunEnv) (w w1 : World) (rows : List Row)
    (d : Option String) (h : run env w = RunResult.finished w1 rows d) :
    ∃ st1, w1.stateFile = some st1 ∧
      st1.seen_ids.Pairwise (fun a b => strLe a b = true) ∧
      (∀ v, v ∈ st1.seen_ids ↔
        v ∈ (read_state w).seen_ids ∨ v ∈ rows.map Row.video_id) := by
  cases hs : env.subs with
  | error e => simp [run, hs] at h
  | ok cs =>
    simp only [run, hs] at h
    injection h with hw hrows hd
    refine ⟨_, by rw [← hw], ?_, ?_⟩
    · exact pairwise_stableSort strLe strLe_trans strLe_total _
    · intro v
      rw [show (sortStrings
            (cs.foldl (processChannel env)
              ([], pySetOfList (read_state w).seen_ids)).2)
          = stableSort strLe
            (cs.foldl (processChannel env)
              ([], pySetOfList (read_state w).seen_ids)).2 from rfl,
        mem_stableSort, ← hrows]
      exact foldl_pc_inv env (read_state w).seen_ids cs
        ([], pySetOfList (read_state w).seen_ids)
        (fun v2 => by simp [mem_pySetOfList]) v

/-- Witness for C10. -/
theorem run_state_tracks_rows_witness :
    ∃ w1 rows d, run wEnv wEmpty = RunResult.finished w1 rows d ∧
      ∃ st1, w1.stateFile = some st1 ∧
        st1.seen_ids.Pairwise (fun a b => strLe a b = true) ∧
        (∀ v, v ∈ st1.seen_ids ↔
          v ∈ (read_state wEmpty).seen_ids ∨ v ∈ rows.map Row.video_id) := by
  obtain ⟨w1, rows, d, h⟩ :
      ∃ w1 rows d, run wEnv wEmpty = RunResult.finished w1 rows d :=
    ⟨_, _, _, rfl⟩
  exact ⟨w1, rows, d, h, run_state_tracks_rows wEnv wEmpty w1 rows d h⟩

/-- C8: every record a finished run emits is a `buildRow` image, and its
description is the item's description truncated to 1000 code points with the
ellipsis marker `" …"` appended when the source exceeds 1000 code points, and
the unchanged source description otherwise. -/
theorem run_description_truncated (env : RunEnv) (w w1 : World) (rows : List Row)
    (d : Option String) (h : run env w = RunResult.finished w1 rows d) :
    ∀ row ∈ rows, ∃ ch it dv, row = buildRow ch it dv ∧
      row.description = (if pyLen it.description > 1000
        then pyTake 1000 it.description ++ " …" else it.description) := by
  cases hs : env.subs with
  | error e => simp [run, hs] at h
  | ok cs =>
    simp only [run, hs] at h
    injection h with hw hrows hd
    intro row hrow
    rw [← hrows] at hrow
    rcases foldl_pc_prov env cs ([], pySetOfList (read_state w).seen_ids) row hrow
      with h1 | ⟨ch, it, dv, h2⟩
    · simp at h1
    · refine ⟨ch, it, dv, h2, ?_⟩
      rw [h2]
      rfl

/-- Witness for C8. -/
theorem run_description_truncated_witness :
    ∃ w1 rows d, run wEnv wEmpty = RunResult.finished w1 rows d ∧
      ∀ row ∈ rows, ∃ ch it dv, row = buildRow ch it dv ∧
        row.description = (if pyLen it.description > 1000
          then pyTake 1000 it.description ++ " …" else it.description) := by
  obtain ⟨w1, rows, d, h⟩ :
      ∃ w1 rows d, run wEnv wEmpty = RunResult.finished w1 rows d :=
    ⟨_, _, _, rfl⟩
  exact ⟨w1, rows, d, h, run_description_truncated wEnv wEmpty w1 rows d h⟩

/-- C1: a finished run followed by a second run over the same environment
(the same feed pages and the same per-id detail responses), starting from the
world the first run left behind, emits zero new records: both sinks are
unchanged and no day file is produced. -/
theorem run_idempotent_dedup (env : RunEnv) (w w1 : World) (rows1 : List Row)
    (d1 : Option String) (h : run env w = RunResult.finished w1 rows1 d1) :
    ∃ st2, run env w1 = RunResult.finished
      { day := w1.day, alltime := w1.alltime, stateFile := some st2 } [] none := by
  cases hs : env.subs with
  | error e => simp [run, hs] at h
  | ok cs =>
    simp only [run, hs] at h
    injection h with hw hrows hd
    have hstate : w1.stateFile = some
        { seen_ids := sortStrings
            (cs.foldl (processChannel env)
              ([], pySetOfList (read_state w).seen_ids)).2
          last_run_utc := some env.nowUtc } := by
      rw [← hw]
    have hseen2 : ∀ v, v ∈ pySetOfList (read_state w1).seen_ids ↔
        v ∈ (cs.foldl (processChannel env)
          ([], pySetOfList (read_state w).seen_ids)).2 := by
      intro v
      rw [mem_pySetOfList, read_state, hstate]
      show v ∈ sortStrings _ ↔ _
      rw [show ∀ l, sortStrings l = stableSort strLe l from fun l => rfl]
      exact mem_stableSort strLe
    have hcov : ∀ ch ∈ cs, ∀ up, env.uploadsOf ch = .ok (some up) →
        ∀ it ∈ (fetch_playlist_items_pages (env.feedPages up) env.pages).1,
          (env.detail it.videoId).isSome →
          it.videoId ∈ pySetOfList (read_state w1).seen_ids := by
      intro ch hch up hu it hit hsome
      rw [hseen2]
      exact foldl_pc_covers env cs ([], pySetOfList (read_state w).seen_ids)
        ch hch up hu it hit hsome
    have hnoop := foldl_pc_noop env cs ([], pySetOfList (read_state w1).seen_ids)
      (fun ch hch up hu it hit hsome => hcov ch hch up hu it hit hsome)
    refine ⟨{ seen_ids := sortStrings (pySetOfList (read_state w1).seen_ids)
              last_run_utc := some env.nowUtc }, ?_⟩
    simp only [run, hs, hnoop]
    simp [write_csv]

/-- Witness for C1. -/
theorem run_idempotent_dedup_witness :
    ∃ w1 rows1 d1, run wEnv wEmpty = RunResult.finished w1 rows1 d1 ∧
      ∃ st2, run wEnv w1 = RunResult.finished
        { day := w1.day, alltime := w1.alltime, stateFile := some st2 } [] none := by
  obtain ⟨w1, rows1, d1, h⟩ :
      ∃ w1 rows1 d1, run wEnv wEmpty = RunResult.finished w1 rows1 d1 :=
    ⟨_, _, _, rfl⟩
  exact ⟨w1, rows1, d1, h, run_idempotent_dedup wEnv wEmpty w1 rows1 d1 h⟩
